import Mathlib

/-!
Verification of the order-summary engine of the `cmc-em.github.io` repository.

The development shallowly embeds the three source files:

* `src/google-apps-script.js` — the per-combo report: pricing configuration,
  `normalizeColor`, `getPriceTier`, the aggregation loop of `updateSummary`
  (a JS object keyed by `product + "|" + normalizedColor`), the totals loop,
  the rendered breakdown rows with blank separators, and `doPost`.
* `src/unnamed/part_001` — the alternate (per-product / global-tier) report
  variant: `productCounts`, the grand-total tier determination and the
  product-breakdown pricing loop.
* `src/unnamed/part_000` — the CSV parser: `parseCSVLine` and `parseCSV`.

JS numbers are modelled by `Nat`: counts and tiers directly, money amounts
in exact cents (the source's IEEE-754 doubles carry sub-cent representation
error on prices such as 173.58, but every claim verified here concerns
tier selection, zero contributions, exact count sums or placeholder
rendering, none of which depend on that error); JS objects
used as string-keyed dictionaries are modelled by association lists in
insertion order; `Array.prototype.sort()` on key strings is modelled by
insertion sort with the lexicographic order `strLeR` defined below (which
agrees with the JS UTF-16 comparison on the ASCII keys the program builds).
-/

namespace OrderApp

/-! ### Pricing configuration (`google-apps-script.js` lines 14–24) -/

/-- The `PRICING` table: product name → (tier quantity → unit price in
cents). -/
def PRICING : List (String × List (Nat × Nat)) :=
  [("Better Sweater Jacket",
      [(6, 17500), (18, 17358), (50, 16268), (72, 15968)]),
   ("Better Sweater Vest",
      [(6, 13288), (18, 13128), (50, 12358), (72, 11988)]),
   ("Better Sweater Quarter Zip",
      [(6, 15500), (18, 15200), (50, 14268), (72, 13958)])]

/-- The flat embroidery fee of $8.00, in cents. -/
def EMBROIDERY_FEE : Nat := 800

/-- Colors that count as "Gray" for grouping purposes. -/
def GRAY_COLORS : List String := ["Birch White", "Stonewash"]

/-- Association-list lookup with decidable key equality (models indexing a JS
object by a string/number key). -/
def assocFind {α β : Type} [DecidableEq α] : List (α × β) → α → Option β
  | [], _ => none
  | (k, v) :: rest, key => if k = key then some v else assocFind rest key

/-- Model of `normalizeColor` (lines 31–36): members of `GRAY_COLORS` map to "Gray". -/
def normalizeColor (color : String) : String :=
  if GRAY_COLORS.contains color then "Gray" else color

/-- Model of `getPriceTier` (lines 41–46). -/
def getPriceTier (qty : Nat) : Nat :=
  if qty ≥ 72 then 72
  else if qty ≥ 50 then 50
  else if qty ≥ 18 then 18
  else 6

/-- Lookup `PRICING[product] ? PRICING[product][tier] : 0` (line 112 /
`part_001` line 128).  A tier key missing from a product's table yields 0;
this branch is unreachable for tiers produced by `getPriceTier`. -/
def unitPriceFor (product : String) (tier : Nat) : Nat :=
  match assocFind PRICING product with
  | some tbl => (assocFind tbl tier).getD 0
  | none => 0

/-- C2: for every quantity, `getPriceTier` is non-decreasing, returns a
configured breakpoint that is ≤ the quantity whenever the quantity is at
least 6, and returns 6 whenever the quantity is below 6. -/
theorem getPriceTier_spec :
    (∀ a b : Nat, a ≤ b → getPriceTier a ≤ getPriceTier b)
    ∧ (∀ q : Nat, 6 ≤ q → getPriceTier q ∈ [6, 18, 50, 72] ∧ getPriceTier q ≤ q)
    ∧ (∀ q : Nat, q < 6 → getPriceTier q = 6) := by
  refine ⟨?_, ?_, ?_⟩
  · intro a b hab
    unfold getPriceTier
    split_ifs <;> omega
  · intro q hq
    constructor
    · unfold getPriceTier
      split_ifs <;> simp
    · unfold getPriceTier
      split_ifs <;> omega
  · intro q hq
    unfold getPriceTier
    split_ifs <;> omega

/-- Witness for C2 at concrete quantities. -/
theorem getPriceTier_spec_witness :
    getPriceTier 7 ≤ getPriceTier 55 ∧ getPriceTier 20 ≤ 20 ∧ getPriceTier 3 = 6 :=
  ⟨getPriceTier_spec.1 7 55 (by decide),
   (getPriceTier_spec.2.1 20 (by decide)).2,
   getPriceTier_spec.2.2 3 (by decide)⟩

/-- C9: color normalization is idempotent; "Gray" is a fixed point and colors
outside the gray set pass through unchanged. -/
theorem normalizeColor_idem (c : String) :
    normalizeColor (normalizeColor c) = normalizeColor c := by
  by_cases h : c ∈ GRAY_COLORS
  · have hg : "Gray" ∉ GRAY_COLORS := by decide
    simp [normalizeColor, h, hg]
  · simp [normalizeColor, h]

/-! ### JS string primitives

`String.prototype.trim` and `split("\n")`, modelled over the character list
of a `String` (Lean's builtin `String.trim`/`splitOn` are not usable here
because their `Substring`-based implementations do not reduce). -/

/-- Characters of `s` with leading and trailing whitespace removed
(models `s.trim()`). -/
def trimChars (l : List Char) : List Char :=
  ((l.dropWhile Char.isWhitespace).reverse.dropWhile Char.isWhitespace).reverse

def strTrim (s : String) : String := ⟨trimChars s.data⟩

/-! ### The aggregation loop of `updateSummary` (`google-apps-script.js`
lines 79–97)

Each stored row contributes to the JS object `productColorData`, keyed by
`product + "|" + normalizeColor(color)`; rows with an empty product are
skipped; rows whose embroidered-name field is non-empty after trimming also
bump the group's embroidery counter.  The object is modelled as an
association list in insertion order. -/

/-- The fields of a stored order row that `updateSummary` reads. -/
structure OrderRow where
  product : String
  color : String
  embName : String
deriving DecidableEq

/-- One entry of `productColorData`. -/
structure Combo where
  product : String
  color : String
  count : Nat
  embroideryCount : Nat
deriving DecidableEq

/-- Key `product + "|" + color` (line 89). -/
def comboKey (p c : String) : String := p ++ "|" ++ c

/-- The grouping key of a row. -/
def keyOf (r : OrderRow) : String := comboKey r.product (normalizeColor r.color)

/-- Truthiness of `embName && embName.toString().trim()` (line 94) as a Bool. -/
def rowEmb (r : OrderRow) : Bool := (strTrim r.embName) ≠ ""

/-- Increments `combo.count++` and the conditional `combo.embroideryCount++`
(lines 93–96). -/
def bumpCombo (emb : Bool) (g : Combo) : Combo :=
  { g with count := g.count + 1,
           embroideryCount := g.embroideryCount + (if emb then 1 else 0) }

/-- Update the association list at `key`: bump an existing entry, or append a
fresh entry (the JS object creates `{product, color, count: 0,
embroideryCount: 0}` and then increments, lines 90–96). -/
def aggUpd (emb : Bool) (p c key : String) :
    List (String × Combo) → List (String × Combo)
  | [] => [(key, ⟨p, c, 1, if emb then 1 else 0⟩)]
  | (k, g) :: rest =>
      if k = key then (k, bumpCombo emb g) :: rest
      else (k, g) :: aggUpd emb p c key rest

/-- One iteration of the aggregation loop (lines 81–97). -/
def aggStep (m : List (String × Combo)) (r : OrderRow) : List (String × Combo) :=
  if r.product = "" then m
  else aggUpd (rowEmb r) r.product (normalizeColor r.color) (keyOf r) m

/-- The full aggregation pass over the stored rows. -/
def aggregate (rows : List OrderRow) : List (String × Combo) :=
  rows.foldl aggStep []

/-- Association-list lookup for the aggregate (models `productColorData[key]`). -/
def lookupCombo : List (String × Combo) → String → Option Combo
  | [], _ => none
  | (k, g) :: rest, key => if k = key then some g else lookupCombo rest key

/-- The `(count, embroideryCount)` pair the aggregate stores under `key`. -/
def countsAt (key : String) (m : List (String × Combo)) : Option (Nat × Nat) :=
  (lookupCombo m key).map (fun g => (g.count, g.embroideryCount))

/-- Whether a row contributes to the group keyed `key`. -/
def hitB (key : String) (r : OrderRow) : Bool :=
  (!(r.product == "")) && (keyOf r == key)

/-- Whether a row contributes an embroidery count to the group keyed `key`. -/
def embHitB (key : String) (r : OrderRow) : Bool := hitB key r && rowEmb r

/-- Add `n` row hits and `e` embroidery hits to an optional counter pair. -/
def mergeCounts : Option (Nat × Nat) → Nat → Nat → Option (Nat × Nat)
  | some (a, b), n, e => some (a + n, b + e)
  | none, n, e => if n = 0 then none else some (n, e)

theorem countsAt_aggUpd (emb : Bool) (p c key k : String) (m : List (String × Combo)) :
    countsAt key (aggUpd emb p c k m) =
      if k = key then
        (match countsAt key m with
         | some (a, b) => some (a + 1, b + (if emb then 1 else 0))
         | none => some (1, if emb then 1 else 0))
      else countsAt key m := by
  induction m with
  | nil =>
      by_cases h : k = key <;> simp [aggUpd, countsAt, lookupCombo, h]
  | cons hd tl ih =>
      obtain ⟨k', g⟩ := hd
      by_cases h1 : k' = k
      · subst h1
        by_cases h2 : k' = key <;>
          simp [aggUpd, countsAt, lookupCombo, h2, bumpCombo]
      · by_cases h2 : k' = key
        · subst h2
          have hk : ¬ k = k' := fun h => h1 h.symm
          simp [aggUpd, countsAt, lookupCombo, h1, hk]
        · simpa [aggUpd, countsAt, lookupCombo, h1, h2] using ih

theorem countsAt_foldl (rows : List OrderRow) :
    ∀ (m : List (String × Combo)) (key : String),
      countsAt key (rows.foldl aggStep m) =
        mergeCounts (countsAt key m) (rows.countP (hitB key)) (rows.countP (embHitB key)) := by
  induction rows with
  | nil =>
      intro m key
      cases h : countsAt key m <;> simp [mergeCounts, h]
  | cons r rest ih =>
      intro m key
      rw [List.foldl_cons, ih, List.countP_cons, List.countP_cons]
      by_cases hp : r.product = ""
      · have h1 : hitB key r = false := by simp [hitB, hp]
        have h2 : embHitB key r = false := by simp [embHitB, h1]
        simp [aggStep, hp, h1, h2]
      · by_cases hk : keyOf r = key
        · have h1 : hitB key r = true := by simp [hitB, hp, hk]
          have h2 : embHitB key r = rowEmb r := by simp [embHitB, h1]
          rw [aggStep, if_neg hp, countsAt_aggUpd, if_pos hk, h1, h2]
          cases ho : countsAt key m with
          | none =>
              cases he : rowEmb r <;> simp [mergeCounts, he, Nat.add_comm]
          | some ab =>
              obtain ⟨a, b⟩ := ab
              cases he : rowEmb r <;> simp [mergeCounts, he] <;> omega
        · have h1 : hitB key r = false := by simp [hitB, hp, hk]
          have h2 : embHitB key r = false := by simp [embHitB, h1]
          rw [aggStep, if_neg hp, countsAt_aggUpd, if_neg hk, h1, h2]
          simp

/-- C5: aggregation is order-independent — permuting the stored rows yields
the same mapping from grouping key to `(count, embroideryCount)`. -/
theorem aggregate_perm_invariant (l1 l2 : List OrderRow) (hp : l1.Perm l2) :
    ∀ key : String, countsAt key (aggregate l1) = countsAt key (aggregate l2) := by
  intro key
  rw [aggregate, aggregate, countsAt_foldl, countsAt_foldl,
      hp.countP_eq (hitB key), hp.countP_eq (embHitB key)]

/-- Witness for C5 on a concrete two-row store and its transposition. -/
theorem aggregate_perm_invariant_witness :
    countsAt "Better Sweater Vest|Black"
        (aggregate [⟨"Better Sweater Vest", "Black", "Sam"⟩,
                    ⟨"Better Sweater Jacket", "Navy", ""⟩]) =
      countsAt "Better Sweater Vest|Black"
        (aggregate [⟨"Better Sweater Jacket", "Navy", ""⟩,
                    ⟨"Better Sweater Vest", "Black", "Sam"⟩]) :=
  aggregate_perm_invariant _ _
    (List.Perm.swap ⟨"Better Sweater Jacket", "Navy", ""⟩
      ⟨"Better Sweater Vest", "Black", "Sam"⟩ []) _

/-- C4 counterexample: with the string-concatenation key, two rows with
distinct `(product, normalizedColor)` pairs — `("A|B", "C")` and
`("A", "B|C")` — collide on the key `"A|B|C"` and are merged into a single
group. -/
theorem groupKey_collision_counterexample :
    (aggregate [⟨"A|B", "C", ""⟩, ⟨"A", "B|C", ""⟩]).length = 1
    ∧ ¬(("A|B" : String) = "A"
        ∧ normalizeColor "C" = normalizeColor "B|C") := by
  decide

theorem append_pipe_eq : ∀ (l1 l2 r1 r2 : List Char),
    '|' ∉ l1 → '|' ∉ l2 → l1 ++ '|' :: r1 = l2 ++ '|' :: r2 →
    l1 = l2 ∧ r1 = r2 := by
  intro l1
  induction l1 with
  | nil =>
      intro l2 r1 r2 _ h2 h
      cases l2 with
      | nil => simpa using h
      | cons c t =>
          simp only [List.nil_append, List.cons_append, List.cons.injEq] at h
          obtain ⟨hc, -⟩ := h
          subst hc
          exact absurd (List.mem_cons_self _ _) h2
  | cons c t ih =>
      intro l2 r1 r2 h1 h2 h
      cases l2 with
      | nil =>
          simp only [List.nil_append, List.cons_append, List.cons.injEq] at h
          obtain ⟨hc, -⟩ := h
          subst hc
          exact absurd (List.mem_cons_self _ _) h1
      | cons c2 t2 =>
          simp only [List.cons_append, List.cons.injEq] at h
          obtain ⟨hc, ht⟩ := h
          have h1' : '|' ∉ t := fun hm => h1 (List.mem_cons_of_mem _ hm)
          have h2' : '|' ∉ t2 := fun hm => h2 (List.mem_cons_of_mem _ hm)
          obtain ⟨he, hr⟩ := ih t2 r1 r2 h1' h2' ht
          exact ⟨by rw [hc, he], hr⟩

/-- When neither product name contains the separator `'|'`, the
concatenated key determines the `(product, color)` pair. -/
theorem comboKey_inj {p1 c1 p2 c2 : String}
    (hp1 : '|' ∉ p1.data) (hp2 : '|' ∉ p2.data) :
    comboKey p1 c1 = comboKey p2 c2 ↔ (p1 = p2 ∧ c1 = c2) := by
  constructor
  · intro h
    have h0 := congrArg String.data h
    have hpipe : ("|" : String).data = ['|'] := rfl
    simp only [comboKey, String.data_append, hpipe, List.append_assoc,
      List.singleton_append] at h0
    obtain ⟨hp, hc⟩ := append_pipe_eq _ _ _ _ hp1 hp2 h0
    exact ⟨String.ext hp, String.ext hc⟩
  · rintro ⟨rfl, rfl⟩
    rfl

/-- C4 amended: provided product names do not contain the key separator
`'|'`, two stored rows with non-empty product are aggregated into one group
if and only if they agree on product and normalized color. -/
theorem sameGroup_iff_of_pipeFree (r1 r2 : OrderRow)
    (h1 : r1.product ≠ "") (h2 : r2.product ≠ "")
    (hp1 : '|' ∉ r1.product.data) (hp2 : '|' ∉ r2.product.data) :
    (aggregate [r1, r2]).length = 1 ↔
      (r1.product = r2.product ∧
        normalizeColor r1.color = normalizeColor r2.color) := by
  have hiff : keyOf r1 = keyOf r2 ↔
      (r1.product = r2.product ∧
        normalizeColor r1.color = normalizeColor r2.color) :=
    comboKey_inj hp1 hp2
  by_cases hk : keyOf r1 = keyOf r2
  · have hlen : (aggregate [r1, r2]).length = 1 := by
      simp [aggregate, aggStep, aggUpd, h1, h2, hk]
    exact iff_of_true hlen (hiff.mp hk)
  · have hlen : (aggregate [r1, r2]).length = 2 := by
      simp [aggregate, aggStep, aggUpd, h1, h2, hk]
    refine iff_of_false ?_ ?_
    · rw [hlen]
      omega
    · intro hx
      exact hk (hiff.mpr hx)

/-- Witness for the amended C4 at two equal concrete rows. -/
theorem sameGroup_iff_of_pipeFree_witness :
    (aggregate [⟨"Better Sweater Vest", "Black", ""⟩,
                ⟨"Better Sweater Vest", "Black", ""⟩]).length = 1 :=
  (sameGroup_iff_of_pipeFree ⟨"Better Sweater Vest", "Black", ""⟩
      ⟨"Better Sweater Vest", "Black", ""⟩
      (by decide) (by decide) (by decide) (by decide)).mpr ⟨rfl, rfl⟩

/-! ### Pricing, totals and rendered rows (`google-apps-script.js`
lines 99–176) -/

/-- Two-digit zero padding of a remainder below 100. -/
def pad2 (n : Nat) : String := (if n < 10 then "0" else "") ++ toString n

/-- Model of `x.toFixed(2)` applied to an exact amount of cents. -/
def fmt2 (cents : Nat) : String :=
  toString (cents / 100) ++ "." ++ pad2 (cents % 100)

/-- Unit price applied to a combo: tier from the combo's own count
(lines 111–112). -/
def comboUnitPrice (g : Combo) : Nat := unitPriceFor g.product (getPriceTier g.count)

/-- Subtotal `combo.count * unitPrice` (line 113). -/
def comboSubtotal (g : Combo) : Nat := g.count * comboUnitPrice g

/-- Fees `combo.embroideryCount * EMBROIDERY_FEE` (line 114). -/
def comboEmbFees (g : Combo) : Nat := g.embroideryCount * EMBROIDERY_FEE

/-- Status column value (lines 116–121). -/
def statusOf (g : Combo) : String :=
  if g.count < 6 then "⚠️ NOT FULFILLED" else "✓ OK"

/-- The grand-total accumulators of `updateSummary` (lines 100–103). -/
structure Totals where
  items : Nat
  cost : Nat
  embroidery : Nat
  hasUnfulfilled : Bool
deriving DecidableEq

/-- One iteration of the totals loop (lines 109–125): combos below the
6-item minimum only set the warning flag; fulfilled combos are added to all
three grand totals. -/
def totalsStep (t : Totals) (g : Combo) : Totals :=
  if g.count < 6 then { t with hasUnfulfilled := true }
  else { t with items := t.items + g.count,
                cost := t.cost + comboSubtotal g,
                embroidery := t.embroidery + comboEmbFees g }

def computeTotals (cs : List Combo) : Totals := cs.foldl totalsStep ⟨0, 0, 0, false⟩

/-- The 6-item fulfillment test. -/
def fulfilledB (g : Combo) : Bool := decide (6 ≤ g.count)

theorem foldl_totalsStep (cs : List Combo) : ∀ t : Totals,
    cs.foldl totalsStep t =
      ⟨t.items + ((cs.filter fulfilledB).map Combo.count).sum,
       t.cost + ((cs.filter fulfilledB).map comboSubtotal).sum,
       t.embroidery + ((cs.filter fulfilledB).map comboEmbFees).sum,
       t.hasUnfulfilled || cs.any (fun g => decide (g.count < 6))⟩ := by
  induction cs with
  | nil =>
      intro t
      simp
  | cons c rest ih =>
      intro t
      rw [List.foldl_cons, ih]
      by_cases hc : c.count < 6
      · have hf : fulfilledB c = false := by
          simp [fulfilledB]
          omega
        simp [totalsStep, hc, hf]
      · have hf : fulfilledB c = true := by
          simp [fulfilledB]
          omega
        simp only [totalsStep, if_neg hc, List.filter_cons, hf, if_true,
          List.map_cons, List.sum_cons, List.any_cons, decide_eq_true_eq,
          Totals.mk.injEq]
        refine ⟨by omega, by omega, by omega, by simp [hc]⟩

/-- The rendered breakdown row of one combo (lines 167–175): below-minimum
combos show "N/A" for the tier and "-" placeholders for unit price and
subtotal. -/
def renderCombo (g : Combo) : List String :=
  [g.product, g.color, toString g.count,
   if g.count < 6 then "N/A" else toString (getPriceTier g.count) ++ "+",
   if g.count < 6 then "-" else "$" ++ fmt2 (comboUnitPrice g),
   if g.count < 6 then "-" else "$" ++ fmt2 (comboSubtotal g),
   statusOf g]

/-- The blank spacer row of the breakdown table (line 163). -/
def blankRow : List String := ["", "", "", "", "", "", ""]

/-- The breakdown loop body (lines 157–176), parameterized by the
`currentProduct` tracker: a blank row precedes a combo whose product differs
from the previous one, except before the very first combo. -/
def comboSectionGo (cur : String) : List Combo → List (List String)
  | [] => []
  | g :: rest =>
      (if g.product ≠ cur ∧ cur ≠ "" then [blankRow] else []) ++
        renderCombo g :: comboSectionGo g.product rest

/-- The data-row block of the per-combo breakdown table. -/
def comboSection (cs : List Combo) : List (List String) := comboSectionGo "" cs

theorem renderCombo_ne_blank (g : Combo) : renderCombo g ≠ blankRow := by
  intro h
  have h6 := congrArg (fun l => l.getD 6 "") h
  simp only [renderCombo, blankRow, List.getD, List.getElem?_cons_succ,
    List.getElem?_cons_zero, Option.getD_some] at h6
  by_cases hc : g.count < 6 <;> simp [statusOf, hc] at h6

theorem comboSection_data_rows (cs : List Combo) : ∀ cur : String,
    (comboSectionGo cur cs).filter (fun r => decide (r ≠ blankRow)) =
      cs.map renderCombo := by
  induction cs with
  | nil =>
      intro cur
      simp [comboSectionGo]
  | cons c rest ih =>
      intro cur
      by_cases hc : c.product ≠ cur ∧ cur ≠ ""
      · simp [comboSectionGo, hc, renderCombo_ne_blank c]
        simpa using ih c.product
      · simp [comboSectionGo, hc, renderCombo_ne_blank c]
        simpa using ih c.product

/-- C1: in the per-combo report, combos below the 6-item minimum contribute
zero to all three grand totals (the totals equal those computed from the
fulfilled combos alone), `grandTotalItems` is exactly the sum of `count`
over combos with `count ≥ 6`, and every below-minimum combo is still listed
in the breakdown with the warning status and placeholder tier/unit
price/subtotal cells. -/
theorem unfulfilled_contribute_zero (cs : List Combo) :
    (computeTotals cs).items = ((cs.filter (fun g => decide (6 ≤ g.count))).map Combo.count).sum
    ∧ (computeTotals cs).cost = (computeTotals (cs.filter (fun g => decide (6 ≤ g.count)))).cost
    ∧ (computeTotals cs).embroidery =
        (computeTotals (cs.filter (fun g => decide (6 ≤ g.count)))).embroidery
    ∧ ∀ g ∈ cs, g.count < 6 →
        renderCombo g =
          [g.product, g.color, toString g.count, "N/A", "-", "-", "⚠️ NOT FULFILLED"]
        ∧ renderCombo g ∈ comboSection cs := by
  have hfe : (fun g : Combo => decide (6 ≤ g.count)) = fulfilledB := by
    funext g
    simp [fulfilledB]
  have hff : (cs.filter fulfilledB).filter fulfilledB = cs.filter fulfilledB := by
    rw [List.filter_filter]
    congr 1
    funext g
    cases fulfilledB g <;> rfl
  refine ⟨?_, ?_, ?_, ?_⟩
  · simp [hfe, computeTotals, foldl_totalsStep]
  · simp [hfe, computeTotals, foldl_totalsStep, hff]
  · simp [hfe, computeTotals, foldl_totalsStep, hff]
  · intro g hg hlt
    constructor
    · simp [renderCombo, statusOf, hlt]
    · have hmem : renderCombo g ∈ cs.map renderCombo := List.mem_map_of_mem _ hg
      rw [← comboSection_data_rows cs ""] at hmem
      exact List.mem_of_mem_filter hmem

/-- Witness for C1 at one concrete below-minimum combo. -/
theorem unfulfilled_contribute_zero_witness :
    renderCombo ⟨"Better Sweater Vest", "Black", 3, 1⟩ =
      ["Better Sweater Vest", "Black", "3", "N/A", "-", "-", "⚠️ NOT FULFILLED"]
    ∧ renderCombo ⟨"Better Sweater Vest", "Black", 3, 1⟩ ∈
        comboSection [⟨"Better Sweater Vest", "Black", 3, 1⟩] :=
  (unfulfilled_contribute_zero [⟨"Better Sweater Vest", "Black", 3, 1⟩]).2.2.2
    ⟨"Better Sweater Vest", "Black", 3, 1⟩ (List.mem_singleton.mpr rfl) (by decide)

/-- C7: for a product with no configured price the unit price resolves to 0
and the subtotal to 0, but the report renders the combo exactly like a
legitimately free item — plain "$0.00" cells and the ordinary "✓ OK" status,
with no distinct data-completeness flag. -/
theorem unpriced_product_renders_plain_zero :
    unitPriceFor "Custom Hat" (getPriceTier 6) = 0
    ∧ comboSubtotal ⟨"Custom Hat", "Black", 6, 0⟩ = 0
    ∧ renderCombo ⟨"Custom Hat", "Black", 6, 0⟩ =
        ["Custom Hat", "Black", "6", "6+", "$0.00", "$0.00", "✓ OK"]
    ∧ statusOf ⟨"Custom Hat", "Black", 6, 0⟩ = statusOf ⟨"Better Sweater Vest", "Black", 6, 0⟩ := by
  refine ⟨by decide, by decide, ?_, by decide⟩
  decide

/-! ### Ordering of the breakdown table (`google-apps-script.js` lines
106 and 157–176)

`Object.keys(productColorData).sort()` sorts the grouping-key strings;
the loop then walks the combos in that order, inserting a blank spacer row
whenever the product changes. -/

/-- Lexicographic comparison of character lists by code point (the JS
`Array.prototype.sort()` default compares key strings by UTF-16 code unit,
which agrees with code-point order on the keys this program builds). -/
def lexLe : List Char → List Char → Bool
  | [], _ => true
  | _ :: _, [] => false
  | a :: as, b :: bs => if a = b then lexLe as bs else decide (a < b)

def strLe (s t : String) : Bool := lexLe s.data t.data

/-- The string order used to sort report keys. -/
def strLeR (a b : String) : Prop := strLe a b = true

instance : DecidableRel strLeR := fun a b => by
  unfold strLeR
  infer_instance

theorem lexLe_total : ∀ as bs : List Char, lexLe as bs = true ∨ lexLe bs as = true := by
  intro as
  induction as with
  | nil =>
      intro bs
      left
      rfl
  | cons a as' ih =>
      intro bs
      cases bs with
      | nil =>
          right
          rfl
      | cons b bs' =>
          by_cases hab : a = b
          · subst hab
            rcases ih bs' with h | h
            · left
              simpa [lexLe] using h
            · right
              simpa [lexLe] using h
          · rcases lt_or_gt_of_ne hab with h | h
            · left
              simp [lexLe, hab, h]
            · right
              have hba : ¬ b = a := fun hx => hab hx.symm
              simp [lexLe, hba, h]

theorem lexLe_trans : ∀ as bs cs : List Char,
    lexLe as bs = true → lexLe bs cs = true → lexLe as cs = true := by
  intro as
  induction as with
  | nil =>
      intro bs cs _ _
      rfl
  | cons a as' ih =>
      intro bs cs h1 h2
      cases bs with
      | nil => simp [lexLe] at h1
      | cons b bs' =>
          cases cs with
          | nil => simp [lexLe] at h2
          | cons c cs' =>
              by_cases hab : a = b
              · subst hab
                by_cases hbc : a = c
                · subst hbc
                  simp only [lexLe, if_pos rfl] at h1 h2 ⊢
                  exact ih bs' cs' h1 h2
                · simp only [lexLe, if_pos rfl] at h1
                  simpa [lexLe, hbc] using h2
              · have h1' : a < b := by
                  simpa [lexLe, hab] using h1
                by_cases hbc : b = c
                · subst hbc
                  simp [lexLe, hab, h1']
                · have h2' : b < c := by
                    simpa [lexLe, hbc] using h2
                  have hac : a < c := lt_trans h1' h2'
                  have hne : ¬ a = c := ne_of_lt hac
                  simp [lexLe, hne, hac]

instance : IsTotal String strLeR :=
  ⟨fun a b => lexLe_total a.data b.data⟩

instance : IsTrans String strLeR :=
  ⟨fun a b c => lexLe_trans a.data b.data c.data⟩

/-- The sorted key list `comboKeys` (line 106). -/
def sortedKeysOf (rows : List OrderRow) : List String :=
  ((aggregate rows).map Prod.fst).insertionSort strLeR

/-- The combos in report order (`productColorData[comboKeys[k]]`,
line 110). -/
def combosOf (rows : List OrderRow) : List Combo :=
  (sortedKeysOf rows).filterMap (fun k => lookupCombo (aggregate rows) k)

/-- Every aggregate entry is stored under the key built from its own product
and (already normalized) color, and its product is non-empty. -/
theorem aggUpd_entries (emb : Bool) (p c key : String)
    (hk : key = comboKey p c) (hp : p ≠ "") :
    ∀ m : List (String × Combo),
      (∀ e ∈ m, e.1 = comboKey e.2.product e.2.color ∧ e.2.product ≠ "") →
      ∀ e ∈ aggUpd emb p c key m,
        e.1 = comboKey e.2.product e.2.color ∧ e.2.product ≠ "" := by
  intro m
  induction m with
  | nil =>
      intro _ e he
      simp only [aggUpd, List.mem_singleton] at he
      subst he
      exact ⟨hk, hp⟩
  | cons hd tl ih =>
      intro hall e he
      obtain ⟨k, g⟩ := hd
      by_cases hkk : k = key
      · rw [aggUpd, if_pos hkk] at he
        rcases List.mem_cons.mp he with he1 | he1
        · subst he1
          have := hall (k, g) (List.mem_cons_self _ _)
          simpa [bumpCombo] using this
        · exact hall _ (List.mem_cons_of_mem _ he1)
      · rw [aggUpd, if_neg hkk] at he
        rcases List.mem_cons.mp he with he1 | he1
        · subst he1
          exact hall _ (List.mem_cons_self _ _)
        · exact ih (fun e' he' => hall e' (List.mem_cons_of_mem _ he')) e he1

theorem aggregate_entries (rows : List OrderRow) :
    ∀ e ∈ aggregate rows, e.1 = comboKey e.2.product e.2.color ∧ e.2.product ≠ "" := by
  rw [aggregate]
  generalize hm : ([] : List (String × Combo)) = m
  have hgood : ∀ e ∈ m, e.1 = comboKey e.2.product e.2.color ∧ e.2.product ≠ "" := by
    rw [← hm]
    intro e he
    simp at he
  clear hm
  induction rows generalizing m with
  | nil => simpa using hgood
  | cons r rest ih =>
      rw [List.foldl_cons]
      refine ih (aggStep m r) ?_
      intro e he
      by_cases hp : r.product = ""
      · rw [aggStep, if_pos hp] at he
        exact hgood e he
      · rw [aggStep, if_neg hp] at he
        exact aggUpd_entries (rowEmb r) r.product (normalizeColor r.color)
          (keyOf r) rfl hp m hgood e he

theorem lookupCombo_mem : ∀ (m : List (String × Combo)) (key : String) (g : Combo),
    lookupCombo m key = some g → (key, g) ∈ m := by
  intro m
  induction m with
  | nil =>
      intro key g h
      simp [lookupCombo] at h
  | cons hd tl ih =>
      intro key g h
      obtain ⟨k, g'⟩ := hd
      by_cases hk : k = key
      · rw [lookupCombo, if_pos hk] at h
        obtain rfl := Option.some.inj h
        subst hk
        exact List.mem_cons_self _ _
      · rw [lookupCombo, if_neg hk] at h
        exact List.mem_cons_of_mem _ (ih key g h)

theorem lookupCombo_isSome : ∀ (m : List (String × Combo)) (key : String),
    key ∈ m.map Prod.fst → ∃ g, lookupCombo m key = some g := by
  intro m
  induction m with
  | nil =>
      intro key h
      simp at h
  | cons hd tl ih =>
      intro key h
      obtain ⟨k, g'⟩ := hd
      by_cases hk : k = key
      · exact ⟨g', by rw [lookupCombo, if_pos hk]⟩
      · rw [lookupCombo, if_neg hk]
        refine ih key ?_
        simp only [List.map_cons, List.mem_cons] at h
        rcases h with h | h
        · exact absurd h.symm hk
        · exact h

theorem filterMap_lookup_keys (m : List (String × Combo))
    (hgood : ∀ e ∈ m, e.1 = comboKey e.2.product e.2.color ∧ e.2.product ≠ "") :
    ∀ ks : List String, (∀ k ∈ ks, k ∈ m.map Prod.fst) →
      (ks.filterMap (fun k => lookupCombo m k)).map
          (fun g => comboKey g.product g.color) = ks := by
  intro ks
  induction ks with
  | nil =>
      intro _
      simp
  | cons k ks' ih =>
      intro hall
      obtain ⟨g, hg⟩ := lookupCombo_isSome m k (hall k (List.mem_cons_self _ _))
      have hkey : comboKey g.product g.color = k :=
        ((hgood (k, g) (lookupCombo_mem m k g hg)).1).symm
      simp only [List.filterMap_cons, hg, List.map_cons, hkey]
      rw [ih (fun k' hk' => hall k' (List.mem_cons_of_mem _ hk'))]

theorem combosOf_keys (rows : List OrderRow) :
    (combosOf rows).map (fun g => comboKey g.product g.color) = sortedKeysOf rows := by
  refine filterMap_lookup_keys (aggregate rows) (aggregate_entries rows) _ ?_
  intro k hk
  exact ((List.perm_insertionSort strLeR ((aggregate rows).map Prod.fst)).mem_iff).mp hk

theorem combosOf_products_ne (rows : List OrderRow) :
    ∀ g ∈ combosOf rows, g.product ≠ "" := by
  intro g hg
  rw [combosOf, List.mem_filterMap] at hg
  obtain ⟨k, -, hk⟩ := hg
  exact (aggregate_entries rows (k, g) (lookupCombo_mem _ _ _ hk)).2

/-- First cell of a rendered row. -/
def cell0 (r : List String) : String := r.getD 0 ""

/-- The concatenated grouping key recovered from a rendered data row. -/
def cellKey (r : List String) : String := r.getD 0 "" ++ "|" ++ r.getD 1 ""

/-- The separator discipline of the breakdown table: walking the rows, a
blank row appears exactly between two data rows whose product cells differ,
never before the first data row, never doubled, never trailing. -/
def sepOk : Option String → List (List String) → Bool
  | _, [] => true
  | none, r :: rest =>
      if r = blankRow then false else sepOk (some (cell0 r)) rest
  | some p, [r] =>
      if r = blankRow then false else decide (cell0 r = p)
  | some p, r :: r2 :: rest2 =>
      if r = blankRow then
        (if r2 = blankRow then false
         else decide (cell0 r2 ≠ p) && sepOk (some (cell0 r2)) rest2)
      else decide (cell0 r = p) && sepOk (some (cell0 r)) (r2 :: rest2)

theorem sepOk_data_none (r : List String) (rest : List (List String))
    (hr : r ≠ blankRow) :
    sepOk none (r :: rest) = sepOk (some (cell0 r)) rest := by
  rw [sepOk, if_neg hr]

theorem sepOk_data_some (p : String) (r : List String) (rest : List (List String))
    (hr : r ≠ blankRow) :
    sepOk (some p) (r :: rest) =
      (decide (cell0 r = p) && sepOk (some (cell0 r)) rest) := by
  cases rest with
  | nil =>
      have h0 : sepOk (some (cell0 r)) [] = true := rfl
      rw [h0, Bool.and_true, sepOk, if_neg hr]
  | cons r2 rest2 =>
      rw [sepOk, if_neg hr]

theorem sepOk_blank (p : String) (r2 : List String) (rest2 : List (List String))
    (hr2 : r2 ≠ blankRow) :
    sepOk (some p) (blankRow :: r2 :: rest2) =
      (decide (cell0 r2 ≠ p) && sepOk (some (cell0 r2)) rest2) := by
  rw [sepOk, if_pos rfl, if_neg hr2]

theorem sepOk_comboSectionGo : ∀ (cs : List Combo) (cur : String), cur ≠ "" →
    (∀ g ∈ cs, g.product ≠ "") → sepOk (some cur) (comboSectionGo cur cs) = true := by
  intro cs
  induction cs with
  | nil =>
      intro cur _ _
      rfl
  | cons g rest ih =>
      intro cur hcur hall
      have hg : g.product ≠ "" := hall g (List.mem_cons_self _ _)
      have hrest : ∀ g' ∈ rest, g'.product ≠ "" :=
        fun g' h => hall g' (List.mem_cons_of_mem _ h)
      have hcell : cell0 (renderCombo g) = g.product := rfl
      by_cases hne : g.product = cur
      · have hcond : ¬(g.product ≠ cur ∧ cur ≠ "") := fun h => h.1 hne
        rw [comboSectionGo, if_neg hcond, List.nil_append,
          sepOk_data_some cur (renderCombo g) _ (renderCombo_ne_blank g), hcell, hne]
        simp [ih cur hcur hrest]
      · have hcond : g.product ≠ cur ∧ cur ≠ "" := ⟨hne, hcur⟩
        rw [comboSectionGo, if_pos hcond, List.singleton_append,
          sepOk_blank cur (renderCombo g) _ (renderCombo_ne_blank g), hcell]
        simp [hne, ih g.product hg hrest]

theorem sepOk_comboSection (cs : List Combo)
    (hall : ∀ g ∈ cs, g.product ≠ "") : sepOk none (comboSection cs) = true := by
  cases cs with
  | nil => rfl
  | cons g rest =>
      have hg : g.product ≠ "" := hall g (List.mem_cons_self _ _)
      have hcond : ¬(g.product ≠ "" ∧ ("" : String) ≠ "") := fun h => h.2 rfl
      rw [comboSection, comboSectionGo, if_neg hcond, List.nil_append,
        sepOk_data_none (renderCombo g) _ (renderCombo_ne_blank g)]
      exact sepOk_comboSectionGo rest g.product hg
        (fun g' h => hall g' (List.mem_cons_of_mem _ h))

/-- C6: the data rows of the per-combo breakdown appear sorted ascending
lexicographically by the concatenated grouping-key string, and blank
separator rows appear exactly where the product changes between two
consecutive data rows, never before the first data row. -/
theorem breakdown_sorted_and_separated (rows : List OrderRow) :
    List.Sorted strLeR
      (((comboSection (combosOf rows)).filter
          (fun r => decide (r ≠ blankRow))).map cellKey)
    ∧ sepOk none (comboSection (combosOf rows)) = true := by
  constructor
  · rw [comboSection, comboSection_data_rows (combosOf rows) "", List.map_map]
    have hck : cellKey ∘ renderCombo =
        fun g : Combo => comboKey g.product g.color := rfl
    rw [hck, combosOf_keys]
    exact List.sorted_insertionSort _ _
  · exact sepOk_comboSection _ (combosOf_products_ne rows)

/-! ### The alternate report variant (`src/unnamed/part_001`)

`updateSummary` there counts rows per product (`productCounts`,
lines 81–100), sums every product's count into `grandTotal`
(lines 102–106), resolves ONE tier from that grand total (line 107) and
uses it to price every product row of the breakdown (lines 125–137). -/

/-- Update `productCounts[product] = (productCounts[product] || 0) + 1`
(line 90). -/
def assocBump : List (String × Nat) → String → List (String × Nat)
  | [], p => [(p, 1)]
  | (q, n) :: rest, p =>
      if q = p then (q, n + 1) :: rest else (q, n) :: assocBump rest p

/-- One iteration of the counting loop of `part_001` (lines 81–100),
restricted to the product counter. -/
def productCountsStep (m : List (String × Nat)) (r : OrderRow) : List (String × Nat) :=
  if r.product = "" then m else assocBump m r.product

def productCounts (rows : List OrderRow) : List (String × Nat) :=
  rows.foldl productCountsStep []

/-- The `for (var p in productCounts) grandTotal += productCounts[p]` loop
(lines 103–106). -/
def grandTotal (rows : List OrderRow) : Nat :=
  ((productCounts rows).map Prod.snd).sum

/-- Tier `getPriceTier(grandTotal)` (line 107): a single tier for the
whole report. -/
def globalTier (rows : List OrderRow) : Nat := getPriceTier (grandTotal rows)

/-- The product-breakdown pricing loop (lines 123–137):
`(product, qty, unitPrice)` per sorted product, priced at the global tier. -/
def productBreakdown (rows : List OrderRow) : List (String × Nat × Nat) :=
  (((productCounts rows).map Prod.fst).insertionSort strLeR).map
    (fun p => (p, (assocFind (productCounts rows) p).getD 0,
               unitPriceFor p (globalTier rows)))

theorem sum_assocBump : ∀ (m : List (String × Nat)) (p : String),
    ((assocBump m p).map Prod.snd).sum = (m.map Prod.snd).sum + 1 := by
  intro m
  induction m with
  | nil =>
      intro p
      simp [assocBump]
  | cons hd tl ih =>
      intro p
      obtain ⟨q, n⟩ := hd
      by_cases hq : q = p
      · simp [assocBump, hq]
        omega
      · simp [assocBump, hq, ih p]
        omega

theorem grandTotal_eq_countP (rows : List OrderRow) :
    grandTotal rows = rows.countP (fun r => !(r.product == "")) := by
  rw [grandTotal, productCounts]
  generalize hm : ([] : List (String × Nat)) = m
  have h0 : (((rows.foldl productCountsStep m).map Prod.snd).sum) =
      (m.map Prod.snd).sum + rows.countP (fun r => !(r.product == "")) := by
    clear hm
    induction rows generalizing m with
    | nil => simp
    | cons r rest ih =>
        rw [List.foldl_cons, List.countP_cons, ih]
        by_cases hp : r.product = ""
        · simp [productCountsStep, hp]
        · simp [productCountsStep, hp, sum_assocBump]
          omega
  rw [h0, ← hm]
  simp

/-- C3 counterexample: with 10 Jackets and 10 Vests stored, the alternate
report prices the Jacket row at the tier of the grand total over ALL
products (20 → tier 18, unit price 173.58), not at the tier of the Jacket's
own product total (10 → tier 6, unit price 175.00). -/
theorem perProduct_tier_counterexample :
    globalTier (List.replicate 10 ⟨"Better Sweater Jacket", "Black", ""⟩ ++
                List.replicate 10 ⟨"Better Sweater Vest", "Navy", ""⟩) = 18
    ∧ (assocFind (productCounts (List.replicate 10 ⟨"Better Sweater Jacket", "Black", ""⟩ ++
          List.replicate 10 ⟨"Better Sweater Vest", "Navy", ""⟩)) "Better Sweater Jacket").getD 0 = 10
    ∧ getPriceTier 10 = 6
    ∧ ("Better Sweater Jacket", 10, 17358) ∈
        productBreakdown (List.replicate 10 ⟨"Better Sweater Jacket", "Black", ""⟩ ++
          List.replicate 10 ⟨"Better Sweater Vest", "Navy", ""⟩)
    ∧ unitPriceFor "Better Sweater Jacket" (getPriceTier 10) = 17500
    ∧ (17358 : Nat) ≠ 17500 := by
  decide

/-- C3 amended: in the alternate report the tier is resolved once from the
grand total across ALL stored rows with a non-empty product, and that single
tier prices every product row of the breakdown. -/
theorem productBreakdown_uses_global_tier (rows : List OrderRow) :
    ∀ e ∈ productBreakdown rows,
      e.2.2 = unitPriceFor e.1
        (getPriceTier (rows.countP (fun r => !(r.product == "")))) := by
  intro e he
  rw [productBreakdown] at he
  obtain ⟨p, -, rfl⟩ := List.mem_map.mp he
  simp only [globalTier, grandTotal_eq_countP]

/-- Witness for the amended C3 at a one-row store. -/
theorem productBreakdown_uses_global_tier_witness :
    (("Better Sweater Jacket", 1, (17500 : Nat)) : String × Nat × Nat).2.2 =
      unitPriceFor "Better Sweater Jacket"
        (getPriceTier (([⟨"Better Sweater Jacket", "Black", ""⟩] : List OrderRow).countP
          (fun r => !(r.product == "")))) :=
  productBreakdown_uses_global_tier [⟨"Better Sweater Jacket", "Black", ""⟩]
    ("Better Sweater Jacket", 1, 17500) (by decide)

/-! ### `doPost` (`google-apps-script.js` lines 261–324)

A successfully parsed payload appends — after writing the header row into an
empty sheet — one row per line item, each carrying the shared timestamp and
the submission's person fields, and answers with status "ok"; a parse
failure answers with status "error" and appends nothing. -/

/-- One line item of a submission payload. -/
structure OrderItem where
  product : String
  style : String
  size : String
  color : String
  logo : String
  embroideredName : Option String
  threadColor : Option String
deriving DecidableEq

/-- A parsed submission payload. -/
structure Submission where
  name : String
  phone : String
  email : String
  position : String
  items : List OrderItem
deriving DecidableEq

/-- The header row written into an empty Orders sheet (lines 279–294). -/
def headerRow : List String :=
  ["Timestamp", "Name", "Phone", "Email", "Position", "Product", "Style",
   "Size", "Color", "Logo", "Embroidered Name", "Thread Color"]

/-- The stored row of one line item (lines 300–313): shared timestamp,
repeated person fields, then the item fields with `|| ""` defaults. -/
def itemRow (ts : String) (d : Submission) (it : OrderItem) : List String :=
  [ts, d.name, d.phone, d.email, d.position, it.product, it.style, it.size,
   it.color, it.logo, it.embroideredName.getD "", it.threadColor.getD ""]

/-- Header write `if (sheet.getLastRow() === 0) sheet.appendRow([...])` (line 279). -/
def ensureHeader (store : List (List String)) : List (List String) :=
  if store.length = 0 then store ++ [headerRow] else store

/-- Model of `doPost`: `parsed` is the outcome of `JSON.parse` on the request body
(`none` models the caught exception path). -/
def doPost (ts : String) (parsed : Option Submission)
    (store : List (List String)) : List (List String) × String :=
  match parsed with
  | none => (store, "error")
  | some d =>
      (d.items.foldl (fun s it => s ++ [itemRow ts d it]) (ensureHeader store), "ok")

theorem foldl_append_map {α β : Type} (f : α → β) :
    ∀ (l : List α) (s : List β),
      l.foldl (fun acc a => acc ++ [f a]) s = s ++ l.map f := by
  intro l
  induction l with
  | nil =>
      intro s
      simp
  | cons a t ih =>
      intro s
      rw [List.foldl_cons, ih, List.map_cons]
      simp

/-- C8: for every successfully parsed submission, `doPost` responds "ok" and
appends exactly one stored row per line item, in item order, beyond the
(possibly freshly written) header row; each appended row carries the shared
timestamp and the submission's repeated person fields. -/
theorem doPost_appends_items (ts : String) (d : Submission) (store : List (List String)) :
    (doPost ts (some d) store).2 = "ok"
    ∧ (doPost ts (some d) store).1 = ensureHeader store ++ d.items.map (itemRow ts d)
    ∧ (doPost ts (some d) store).1.length =
        (ensureHeader store).length + d.items.length
    ∧ ∀ r ∈ d.items.map (itemRow ts d),
        r.getD 0 "" = ts ∧ r.getD 1 "" = d.name ∧ r.getD 2 "" = d.phone
        ∧ r.getD 3 "" = d.email ∧ r.getD 4 "" = d.position := by
  refine ⟨rfl, ?_, ?_, ?_⟩
  · rw [doPost, foldl_append_map]
  · rw [doPost, foldl_append_map]
    simp
  · intro r hr
    obtain ⟨it, -, rfl⟩ := List.mem_map.mp hr
    exact ⟨rfl, rfl, rfl, rfl, rfl⟩

/-- Witness for C8 on a concrete one-item submission. -/
theorem doPost_appends_items_witness :
    (doPost "2026-01-01T00:00:00Z"
        (some ⟨"Ann", "555", "a@b.c", "Lead",
          [⟨"Better Sweater Vest", "Style", "M", "Black", "Logo", none, none⟩]⟩)
        []).2 = "ok"
    ∧ (itemRow "2026-01-01T00:00:00Z"
          ⟨"Ann", "555", "a@b.c", "Lead",
            [⟨"Better Sweater Vest", "Style", "M", "Black", "Logo", none, none⟩]⟩
          ⟨"Better Sweater Vest", "Style", "M", "Black", "Logo", none, none⟩).getD 1 ""
        = "Ann" :=
  ⟨(doPost_appends_items "2026-01-01T00:00:00Z"
      ⟨"Ann", "555", "a@b.c", "Lead",
        [⟨"Better Sweater Vest", "Style", "M", "Black", "Logo", none, none⟩]⟩ []).1,
   ((doPost_appends_items "2026-01-01T00:00:00Z"
      ⟨"Ann", "555", "a@b.c", "Lead",
        [⟨"Better Sweater Vest", "Style", "M", "Black", "Logo", none, none⟩]⟩ []).2.2.2
      _ (by decide)).2.1⟩

/-! ### The CSV parser (`src/unnamed/part_000`)

`parseCSVLine` walks the characters of one line, toggling a quote flag and
splitting on unquoted commas; `parseCSV` trims the content, splits it on
newlines, reads the headers from the first line and builds one row object
per remaining line, with `values[i]?.trim() || ""` padding short rows. -/

/-- The character loop of `parseCSVLine` (lines 15–27): `cur` is the
`current` field buffer, `q` the `inQuotes` flag. -/
def parseCSVLineGo : List Char → List Char → Bool → List String
  | [], cur, _ => [⟨cur⟩]
  | ch :: rest, cur, q =>
      if ch = Char.ofNat 34 then parseCSVLineGo rest cur (!q)
      else if ch = ',' ∧ q = false then
        (⟨cur⟩ : String) :: parseCSVLineGo rest [] false
      else parseCSVLineGo rest (cur ++ [ch]) q

def parseCSVLine (line : String) : List String := parseCSVLineGo line.data [] false

/-- Model of `content.split("\n")` for the newline separator. -/
def splitNlGo : List Char → List Char → List String
  | [], cur => [⟨cur⟩]
  | c :: rest, cur =>
      if c = Char.ofNat 10 then (⟨cur⟩ : String) :: splitNlGo rest []
      else splitNlGo rest (cur ++ [c])

def splitNl (s : String) : List String := splitNlGo s.data []

/-- The row object built by
`headers.forEach((h, i) => (row[h.trim()] = values[i]?.trim() || ""))`
(line 41), as a lookup function; a later duplicate header overwrites an
earlier one, as in a JS object. -/
def mkRowGo (values : List String) : Nat → List String → String → Option String
  | _, [], _ => none
  | n, h :: rest, k =>
      match mkRowGo values (n + 1) rest k with
      | some v => some v
      | none => if k = strTrim h then some (strTrim (values.getD n "")) else none

def mkRow (headers values : List String) (k : String) : Option String :=
  mkRowGo values 0 headers k

/-- Headers `parseCSVLine(lines[0])`. -/
def csvHeaders (content : String) : List String :=
  parseCSVLine ((splitNl (strTrim content)).headD "")

/-- Model of `parseCSV` (lines 35–44). -/
def parseCSV (content : String) : List (String → Option String) :=
  ((splitNl (strTrim content)).drop 1).map
    (fun line => mkRow (csvHeaders content) (parseCSVLine line))

theorem parseCSVLineGo_len : ∀ (cs cur : List Char) (q : Bool),
    1 ≤ (parseCSVLineGo cs cur q).length := by
  intro cs
  induction cs with
  | nil =>
      intro cur q
      simp [parseCSVLineGo]
  | cons ch rest ih =>
      intro cur q
      rw [parseCSVLineGo]
      split_ifs
      · exact ih cur (!q)
      · simp
      · exact ih (cur ++ [ch]) q

theorem mkRowGo_isSome : ∀ (headers values : List String) (n : Nat) (h : String),
    h ∈ headers → (mkRowGo values n headers (strTrim h)).isSome = true := by
  intro headers
  induction headers with
  | nil =>
      intro values n h hmem
      simp at hmem
  | cons h0 rest ih =>
      intro values n h hmem
      rcases List.mem_cons.mp hmem with rfl | hmem'
      · cases hx : mkRowGo values (n + 1) rest (strTrim h) with
        | some v => simp [mkRowGo, hx]
        | none => simp [mkRowGo, hx]
      · have hs := ih values (n + 1) h hmem'
        cases hx : mkRowGo values (n + 1) rest (strTrim h) with
        | some v => simp [mkRowGo, hx]
        | none =>
            rw [hx] at hs
            simp at hs

theorem mkRowGo_last : ∀ (headers values : List String) (n : Nat) (k v : String),
    mkRowGo values n headers k = some v →
    ∃ j h, headers.get? j = some h ∧ strTrim h = k
      ∧ v = strTrim (values.getD (n + j) "")
      ∧ ∀ j2 h2, j < j2 → headers.get? j2 = some h2 → strTrim h2 ≠ k := by
  intro headers
  induction headers with
  | nil =>
      intro values n k v heq
      simp [mkRowGo] at heq
  | cons h0 rest ih =>
      intro values n k v heq
      rw [mkRowGo] at heq
      cases hx : mkRowGo values (n + 1) rest k with
      | some v2 =>
          rw [hx] at heq
          obtain rfl : v2 = v := Option.some.inj heq
          obtain ⟨j, h, hj, hk, hv, hmax⟩ := ih values (n + 1) k v2 hx
          refine ⟨j + 1, h, by simpa using hj, hk, ?_, ?_⟩
          · have harith : n + 1 + j = n + (j + 1) := by omega
            rw [hv, harith]
          · intro j2 h2 hgt hget
            cases j2 with
            | zero => omega
            | succ j2' =>
                rw [List.get?_cons_succ] at hget
                exact hmax j2' h2 (by omega) hget
      | none =>
        rw [hx] at heq
        by_cases hk0 : k = strTrim h0
        · rw [if_pos hk0] at heq
          obtain rfl := (Option.some.inj heq).symm
          refine ⟨0, h0, rfl, hk0.symm, by simp, ?_⟩
          intro j2 h2 hgt hget hk2
          cases j2 with
          | zero => omega
          | succ j2' =>
              rw [List.get?_cons_succ] at hget
              have hmem : h2 ∈ rest := List.get?_mem hget
              have hs := mkRowGo_isSome rest values (n + 1) h2 hmem
              rw [hk2, hx] at hs
              simp at hs
        · rw [if_neg hk0] at heq
          exact absurd heq (by simp)

/-- C10: `parseCSVLine` always returns at least one field; every row object
returned by `parseCSV` holds some value under every (trimmed) header; and a
data line shorter than the header list yields the empty string "" for the
out-of-range columns instead of an out-of-bounds access. -/
theorem parseCSV_total_and_padded :
    (∀ line : String, 1 ≤ (parseCSVLine line).length)
    ∧ (∀ (content : String) (rowf : String → Option String),
        rowf ∈ parseCSV content →
        ∀ h ∈ csvHeaders content, ∃ v, rowf (strTrim h) = some v)
    ∧ (∀ (headers values : List String) (i : Nat) (h : String),
        headers.get? i = some h → values.length ≤ i →
        mkRow headers values (strTrim h) = some "") := by
  refine ⟨?_, ?_, ?_⟩
  · intro line
    exact parseCSVLineGo_len line.data [] false
  · intro content rowf hmem h hh
    rw [parseCSV] at hmem
    obtain ⟨line, -, rfl⟩ := List.mem_map.mp hmem
    have hs := mkRowGo_isSome (csvHeaders content) (parseCSVLine line) 0 h hh
    obtain ⟨v, hv⟩ := Option.isSome_iff_exists.mp hs
    exact ⟨v, hv⟩
  · intro headers values i h hget hlen
    have hs := mkRowGo_isSome headers values 0 h (List.get?_mem hget)
    obtain ⟨v, hv⟩ := Option.isSome_iff_exists.mp hs
    obtain ⟨j, h2, hj, hk, hveq, hmax⟩ := mkRowGo_last headers values 0 (strTrim h) v hv
    have hij : i ≤ j := by
      by_contra hlt
      push_neg at hlt
      exact hmax i h hlt hget rfl
    have hvd : values.getD (0 + j) "" = "" :=
      List.getD_eq_default _ _ (by omega)
    have hve : v = "" := by
      rw [hveq, hvd]
      rfl
    rw [mkRow, hv, hve]

/-- Witness for C10 on a concrete two-column CSV with a short data line. -/
theorem parseCSV_total_and_padded_witness :
    (∃ v, mkRow (csvHeaders "Name,Color\nSam") (parseCSVLine "Sam")
        (strTrim "Name") = some v)
    ∧ mkRow ["Name", "Color"] ["Sam"] (strTrim "Color") = some "" := by
  constructor
  · refine parseCSV_total_and_padded.2.1 "Name,Color\nSam"
      (mkRow (csvHeaders "Name,Color\nSam") (parseCSVLine "Sam")) ?_ "Name" (by decide)
    rw [show parseCSV "Name,Color\nSam" =
        [mkRow (csvHeaders "Name,Color\nSam") (parseCSVLine "Sam")] from rfl]
    exact List.mem_singleton.mpr rfl
  · exact parseCSV_total_and_padded.2.2 ["Name", "Color"] ["Sam"] 1 "Color" rfl (by decide)

end OrderApp
